import Mathlib

/-!
gobm: a stack-based virtual machine.

Shallow embedding of `main.go`: the machine `Bm`, its instruction set, the
per-instruction semantics `Bm.ExecuteInst`, and the fetch-execute loop of
`main`.

Modelling conventions.

* `Word` is Go's `int64`.  It is embedded as `Int`; every arithmetic result is
  brought back into the signed 64-bit range by `wrapWord`, as the Go language
  specifies for signed integer overflow.
* `stackSize` is Go's `int` and `InstType` is Go's `int`; both are embedded as
  `Int`, so that states and instructions outside the intended ranges exist in
  the model exactly as they do in Go.
* `stack` is a Go slice, embedded as a `List Word`.  Indexing a slice outside
  `0 ≤ i < len` is a run-time panic in Go; the embedding makes it an explicit
  outcome (`Exec.panic`).
* `ExecuteInst` mutates its receiver and returns an `error`.  The embedding
  returns the receiver after the call together with the returned error
  (`none` is Go's `nil`).
* `Dump` writes to an `io.Writer`.  The embedding threads the text of the sink
  through the call and returns the receiver with it.
-/

namespace Gobm

/-- Go's `const STACK_CAPACITY = 1024`. -/
def STACK_CAPACITY : Int := 1024

/-- Go's `type Word int64`. -/
abbrev Word : Type := Int

/-- Smallest `int64`, `-2^63`. -/
def WORD_MIN : Int := -9223372036854775808

/-- Largest `int64`, `2^63 - 1`. -/
def WORD_MAX : Int := 9223372036854775807

/-- Two's-complement reduction of an exact integer into the `int64` range
(`2^63 = 9223372036854775808`, `2^64 = 18446744073709551616`). -/
def wrapWord (x : Int) : Word :=
  (x + 9223372036854775808) % 18446744073709551616 - 9223372036854775808

/-- A value that is representable as an `int64`. -/
def isWord (x : Int) : Prop := WORD_MIN ≤ x ∧ x ≤ WORD_MAX

instance (x : Int) : Decidable (isWord x) := by
  unfold isWord; infer_instance

/-- Go's `+` on `int64`. -/
def Word.add (a b : Word) : Word := wrapWord (a + b)

/-- Go's `-` on `int64`. -/
def Word.sub (a b : Word) : Word := wrapWord (a - b)

/-- Go's `*` on `int64`. -/
def Word.mul (a b : Word) : Word := wrapWord (a * b)

/-- Go's `/` on `int64` for a non-zero divisor: the quotient truncated toward
zero, wrapped (the only quotient that leaves the range is `WORD_MIN / -1`). -/
def Word.quo (a b : Word) : Word := wrapWord (Int.tdiv a b)

/-- The four error values declared in `main.go`. -/
inductive VmError where
  | ErrStackOverflow
  | ErrStackUnderflow
  | ErrIllegalInst
  | ErrDivideByZero
  deriving DecidableEq

export VmError (ErrStackOverflow ErrStackUnderflow ErrIllegalInst ErrDivideByZero)

/-- Go's `type Bm struct`. -/
structure Bm where
  stack : List Word
  stackSize : Int
  ip : Word
  halted : Bool
  deriving DecidableEq

/-- Go's `type InstType int`. -/
abbrev InstType : Type := Int

def INST_PUSH : InstType := 0
def INST_PLUS : InstType := 1
def INST_MINUS : InstType := 2
def INST_MULT : InstType := 3
def INST_DIV : InstType := 4
def INST_JMP : InstType := 5
def INST_HALT : InstType := 6

/-- Go's `type Inst struct`. -/
structure Inst where
  typ : InstType
  operand : Word
  deriving DecidableEq

/-- Outcome of a call of `ExecuteInst`: it returns, leaving the receiver in
state `bm` and yielding the error value `err` (`none` is `nil`), or it panics
on a slice index out of range. -/
inductive Exec where
  | ret (bm : Bm) (err : Option VmError)
  | panic
  deriving DecidableEq

/-- Slice read `s[i]`: `none` is the index-out-of-range panic. -/
def sliceGet (s : List Word) (i : Int) : Option Word :=
  if 0 ≤ i then s[i.toNat]? else none

/-- Slice write `s[i] = v`: `none` is the index-out-of-range panic. -/
def sliceSet (s : List Word) (i : Int) (v : Word) : Option (List Word) :=
  if 0 ≤ i ∧ i.toNat < s.length then some (s.set i.toNat v) else none

/-- The zero value of `Bm` (`var bm Bm`): a nil slice and zeroed fields. -/
def Bm.zero : Bm := { stack := [], stackSize := 0, ip := 0, halted := false }

/-- Go's `func (bm *Bm) Init()`. -/
def Bm.Init (_bm : Bm) : Bm :=
  { stack := List.replicate STACK_CAPACITY.toNat 0
    stackSize := 0
    ip := 0
    halted := false }

/-- The shared body of the four arithmetic cases once the size guard has
passed: `bm.stack[bm.stackSize-2] op= bm.stack[bm.stackSize-1]` followed by
`bm.stackSize -= 1`. -/
def Bm.binaryOp (bm : Bm) (op : Word → Word → Word) : Exec :=
  match sliceGet bm.stack (bm.stackSize - 2), sliceGet bm.stack (bm.stackSize - 1) with
  | some a, some b =>
    match sliceSet bm.stack (bm.stackSize - 2) (op a b) with
    | some s => .ret { bm with stack := s, stackSize := bm.stackSize - 1 } none
    | none => .panic
  | _, _ => .panic

/-- Go's `func (bm *Bm) ExecuteInst(inst Inst) error`. -/
def Bm.ExecuteInst (bm : Bm) (inst : Inst) : Exec :=
  if inst.typ = INST_PUSH then
    if bm.stackSize ≥ STACK_CAPACITY then
      .ret bm (some ErrStackOverflow)
    else
      match sliceSet bm.stack bm.stackSize inst.operand with
      | some s => .ret { bm with stack := s, stackSize := bm.stackSize + 1 } none
      | none => .panic
  else if inst.typ = INST_PLUS then
    if bm.stackSize < 2 then
      .ret bm (some ErrStackUnderflow)
    else
      bm.binaryOp Word.add
  else if inst.typ = INST_MINUS then
    if bm.stackSize < 2 then
      .ret bm (some ErrStackUnderflow)
    else
      bm.binaryOp Word.sub
  else if inst.typ = INST_MULT then
    if bm.stackSize < 2 then
      .ret bm (some ErrStackUnderflow)
    else
      bm.binaryOp Word.mul
  else if inst.typ = INST_DIV then
    if bm.stackSize < 2 then
      .ret bm (some ErrStackUnderflow)
    else
      match sliceGet bm.stack (bm.stackSize - 1) with
      | none => .panic
      | some b =>
        if b = 0 then
          .ret bm (some ErrDivideByZero)
        else
          bm.binaryOp Word.quo
  else if inst.typ = INST_HALT then
    .ret { bm with halted := true } none
  else
    .ret bm (some ErrIllegalInst)

/-- Go's `var instTypeNames = [...]string{...}`. -/
def instTypeNames : List String :=
  ["INST_PUSH", "INST_PLUS", "INST_MINUS", "INST_MULT", "INST_DIV", "INST_JMP", "INST_HALT"]

/-- Go's `func InstTypeName(typ InstType) string`; `none` is the
index-out-of-range panic. -/
def InstTypeName (typ : InstType) : Option String :=
  if 0 ≤ typ then instTypeNames[typ.toNat]? else none

/-- Go's `var program = []Inst{...}`; an omitted operand is the zero value. -/
def program : List Inst :=
  [ { typ := INST_PUSH, operand := 69 },
    { typ := INST_PUSH, operand := 420 },
    { typ := INST_PLUS, operand := 0 },
    { typ := INST_PUSH, operand := 42 },
    { typ := INST_MINUS, operand := 0 },
    { typ := INST_PUSH, operand := 2 },
    { typ := INST_MULT, operand := 0 },
    { typ := INST_PUSH, operand := 4 },
    { typ := INST_DIV, operand := 0 },
    { typ := INST_HALT, operand := 0 } ]

/-- Slice read `program[ip]`: `none` is the index-out-of-range panic. -/
def fetch (prog : List Inst) (ip : Word) : Option Inst :=
  if 0 ≤ ip then prog[ip.toNat]? else none

/-- How a run of `main` ends. -/
inductive MainExit where
  -- the loop condition `!bm.halted` became false and `main` returned
  | returned (bm : Bm)
  -- `ExecuteInst` returned `err`; `main` reported it and called `os.Exit(1)`
  | exit1 (err : VmError) (bm : Bm)
  -- a slice index was out of range
  | panicked
  -- the iteration budget of the model ran out with the loop still running
  | running (bm : Bm)
  deriving DecidableEq

/-- The `for !bm.halted { ... }` loop of `main` over the program `prog`, run
for at most `fuel` iterations from state `bm`.  The text written to the
standard streams does not influence the machine and is left out; instead the
result records, in order, the value of `bm.ip` used by each iteration to fetch
its instruction. -/
def mainLoop (prog : List Inst) : Nat → Bm → List Word × MainExit
  | 0, bm => if bm.halted then ([], .returned bm) else ([], .running bm)
  | fuel + 1, bm =>
    if bm.halted then
      ([], .returned bm)
    else
      match fetch prog bm.ip with
      | none => ([bm.ip], .panicked)
      | some inst =>
        match InstTypeName inst.typ with
        | none => ([bm.ip], .panicked)
        | some _ =>
          match bm.ExecuteInst inst with
          | .panic => ([bm.ip], .panicked)
          | .ret bm1 (some err) => ([bm.ip], .exit1 err bm1)
          | .ret bm1 none =>
            let r := mainLoop prog fuel bm1
            (bm.ip :: r.1, r.2)

/-- Go's `func main()`, up to `fuel` loop iterations: the zero-valued machine
is initialised and the loop runs over the package-level `program`. -/
def main (fuel : Nat) : List Word × MainExit :=
  mainLoop program fuel (Bm.Init Bm.zero)

/-- Applying `ExecuteInst` to the instructions of a list one after another, in
order, each to the state left by the previous call.  It stops at the first
call that returns an error or panics and yields that call's outcome; the
outcome `ret bm none` therefore means that every call returned `nil`. -/
def execAll (bm : Bm) : List Inst → Exec
  | [] => .ret bm none
  | inst :: rest =>
    match bm.ExecuteInst inst with
    | .ret bm1 none => execAll bm1 rest
    | r => r

/-- The live part of the stack, bottom to top: `bm.stack[:bm.stackSize]`. -/
def Bm.live (bm : Bm) : List Word := bm.stack.take bm.stackSize.toNat

/-- A machine after `Init` and two pushes, `-7` then `2`: live stack `[-7, 2]`. -/
def sampleTwo : Bm :=
  { stack := -7 :: 2 :: List.replicate 1022 0, stackSize := 2, ip := 0, halted := false }

/-- A machine after `Init` and two pushes, `5` then `0`: live stack `[5, 0]`. -/
def sampleZeroTop : Bm :=
  { stack := 5 :: 0 :: List.replicate 1022 0, stackSize := 2, ip := 0, halted := false }

/-- A machine after `Init` and one push of `0`: live stack `[0]`. -/
def sampleOne : Bm :=
  { stack := List.replicate 1024 0, stackSize := 1, ip := 0, halted := false }

/-- A machine whose stack is full: 1024 live elements, all `69`. -/
def sampleFull : Bm :=
  { stack := List.replicate 1024 69, stackSize := 1024, ip := 0, halted := false }

/-- The size invariant of a machine: the stack has the 1024 slots allocated by
`Init` and `0 ≤ stackSize ≤ STACK_CAPACITY`. -/
def Bm.sizeInv (bm : Bm) : Prop :=
  bm.stack.length = 1024 ∧ 0 ≤ bm.stackSize ∧ bm.stackSize ≤ STACK_CAPACITY

instance (bm : Bm) : Decidable bm.sizeInv := by
  unfold Bm.sizeInv; infer_instance

/-- A caller that keeps calling `ExecuteInst`, one instruction after another,
whatever error value each call returns; `none` when a call panics. -/
def callAll (bm : Bm) : List Inst → Option Bm
  | [] => some bm
  | inst :: rest =>
    match bm.ExecuteInst inst with
    | .ret bm1 _ => callAll bm1 rest
    | .panic => none

/-- The slice indices that a call of `ExecuteInst` evaluates on `bm.stack`,
read off the branches of its `switch`: `stackSize` on a `Push` that passes its
guard; `stackSize-2` and `stackSize-1` on `Plus`, `Minus`, `Mult` that pass
theirs; on `Div`, `stackSize-1` for the zero test and then, for a non-zero
divisor, `stackSize-2` as well. -/
def Bm.touched (bm : Bm) (inst : Inst) : List Int :=
  if inst.typ = INST_PUSH then
    if bm.stackSize ≥ STACK_CAPACITY then [] else [bm.stackSize]
  else if inst.typ = INST_PLUS ∨ inst.typ = INST_MINUS ∨ inst.typ = INST_MULT then
    if bm.stackSize < 2 then [] else [bm.stackSize - 2, bm.stackSize - 1]
  else if inst.typ = INST_DIV then
    if bm.stackSize < 2 then
      []
    else
      match sliceGet bm.stack (bm.stackSize - 1) with
      | none => [bm.stackSize - 1]
      | some b => if b = 0 then [bm.stackSize - 1] else [bm.stackSize - 1, bm.stackSize - 2]
  else
    []

/-- A machine with live stack `[WORD_MAX, 1]`. -/
def sampleMaxOne : Bm :=
  { stack := 9223372036854775807 :: 1 :: List.replicate 1022 0,
    stackSize := 2, ip := 0, halted := false }

/-- A machine with live stack `[WORD_MIN, -1]`. -/
def sampleMinNegOne : Bm :=
  { stack := -9223372036854775808 :: -1 :: List.replicate 1022 0,
    stackSize := 2, ip := 0, halted := false }

/-- A halted machine with live stack `[223]`, instruction pointer 9. -/
def sampleHalted : Bm :=
  { stack := 223 :: 4 :: List.replicate 1022 0, stackSize := 1, ip := 9, halted := true }

/-- The verb `%d` of Go's `fmt` applied to an `int64`: the decimal digits of
the absolute value, preceded by `-` for a negative value. -/
def formatDecimal (v : Word) : String :=
  if v < 0 then "-" ++ Nat.repr v.natAbs else Nat.repr v.natAbs

/-- Slice expression `s[:n]` on a slice whose capacity equals its length, as
`make([]Word, STACK_CAPACITY)` creates it: `none` is the
slice-bounds-out-of-range panic. -/
def sliceTo (s : List Word) (n : Int) : Option (List Word) :=
  if 0 ≤ n ∧ n.toNat ≤ s.length then some (s.take n.toNat) else none

/-- Go's `func (bm *Bm) Dump(f io.Writer)`.  The sink is the text written to
it so far; the result is the receiver after the call together with the sink
after the call, or `none` for a panic.  Write errors of the sink are ignored
by the source and are not modelled. -/
def Bm.Dump (bm : Bm) (f : String) : Option (Bm × String) :=
  let f1 := f ++ "Stack:\n"
  if bm.stackSize > 0 then
    match sliceTo bm.stack bm.stackSize with
    | none => none
    | some vs =>
      some (bm, vs.foldl (fun out v => out ++ ("  " ++ formatDecimal v ++ "\n")) f1)
  else
    some (bm, f1 ++ "  [empty]\n")

/-- A machine after `Init` and three pushes: live stack `[3, 5, 7]`. -/
def sampleThree : Bm :=
  { stack := 3 :: 5 :: 7 :: List.replicate 1021 0, stackSize := 3, ip := 0, halted := false }

set_option maxRecDepth 100000

/-! ## Slice access -/

theorem sliceGet_eq (s : List Word) (i : Int) (k : Nat) (h : i = k) :
    sliceGet s i = s[k]? := by
  subst h
  simp [sliceGet]

theorem sliceSet_eq (s : List Word) (i : Int) (k : Nat) (v : Word) (h : i = k)
    (hk : k < s.length) : sliceSet s i v = some (s.set k v) := by
  subst h
  simp [sliceSet, hk]

theorem sliceSet_none (s : List Word) (i : Int) (v : Word)
    (h : i < 0 ∨ (s.length : Int) ≤ i) : sliceSet s i v = none := by
  unfold sliceSet
  rw [if_neg]
  rintro ⟨h0, h1⟩
  omega

theorem lt_length_of_getElem? {s : List Word} {k : Nat} {a : Word}
    (h : s[k]? = some a) : k < s.length := by
  by_contra hk
  rw [List.getElem?_eq_none (by omega)] at h
  cases h

/-! ## The arithmetic body -/

theorem binaryOp_eq (bm : Bm) (op : Word → Word → Word) (n : Nat) (a b : Word)
    (hsize : bm.stackSize = n) (h2 : 2 ≤ n)
    (ha : bm.stack[n - 2]? = some a) (hb : bm.stack[n - 1]? = some b) :
    bm.binaryOp op =
      .ret { bm with stack := bm.stack.set (n - 2) (op a b), stackSize := (n : Int) - 1 } none := by
  have h1 : sliceGet bm.stack (bm.stackSize - 2) = some a := by
    rw [sliceGet_eq bm.stack _ (n - 2) (by omega), ha]
  have h3 : sliceGet bm.stack (bm.stackSize - 1) = some b := by
    rw [sliceGet_eq bm.stack _ (n - 1) (by omega), hb]
  have h4 : sliceSet bm.stack (bm.stackSize - 2) (op a b) = some (bm.stack.set (n - 2) (op a b)) :=
    sliceSet_eq bm.stack _ (n - 2) _ (by omega) (lt_length_of_getElem? ha)
  simp only [Bm.binaryOp, h1, h3, h4]
  rw [hsize]

theorem binaryOp_not_err (bm bm1 : Bm) (op : Word → Word → Word) (e : VmError) :
    bm.binaryOp op ≠ .ret bm1 (some e) := by
  unfold Bm.binaryOp
  intro h
  split at h
  · split at h
    · cases h
    · cases h
  · cases h

theorem push_eq (bm : Bm) (k : Nat) (v : Word) (hsize : bm.stackSize = k)
    (hcap : k < 1024) (hlen : k < bm.stack.length) :
    bm.ExecuteInst ⟨INST_PUSH, v⟩ =
      .ret { bm with stack := bm.stack.set k v, stackSize := (k : Int) + 1 } none := by
  have h1 : ¬ bm.stackSize ≥ STACK_CAPACITY := by
    unfold STACK_CAPACITY
    omega
  have h2 : sliceSet bm.stack bm.stackSize v = some (bm.stack.set k v) :=
    sliceSet_eq bm.stack _ k v hsize hlen
  simp only [Bm.ExecuteInst, if_true, if_neg h1, h2]
  rw [hsize]

/-! ## Word arithmetic -/

theorem wrapWord_isWord (x : Int) : isWord (wrapWord x) := by
  unfold isWord wrapWord WORD_MIN WORD_MAX
  omega

theorem wrapWord_of_isWord (x : Int) (h : isWord x) : wrapWord x = x := by
  unfold isWord WORD_MIN WORD_MAX at h
  show ((x + 9223372036854775808) % 18446744073709551616 - 9223372036854775808 : Int) = x
  omega

theorem tdiv_isWord (a b : Int) (ha : isWord a) (hb0 : b ≠ 0)
    (hov : ¬ (a = WORD_MIN ∧ b = -1)) : isWord (Int.tdiv a b) := by
  unfold isWord WORD_MIN WORD_MAX at *
  have hq : (Int.tdiv a b).natAbs = a.natAbs / b.natAbs := Int.natAbs_tdiv a b
  by_cases hb1 : b = 1
  · subst hb1
    rw [Int.tdiv_one]
    exact ha
  · by_cases hbm : b = -1
    · subst hbm
      have hneg : Int.tdiv a (-1) = -a := by
        rw [Int.tdiv_neg, Int.tdiv_one]
      rw [hneg]
      omega
    · have hb2 : 2 ≤ b.natAbs := by omega
      have h1 : a.natAbs / b.natAbs ≤ a.natAbs / 2 :=
        Nat.div_le_div_left hb2 (by omega)
      omega

/-! ## Dispatch of `ExecuteInst` -/

theorem ExecuteInst_plus (bm : Bm) (x : Word) (h : 2 ≤ bm.stackSize) :
    bm.ExecuteInst ⟨INST_PLUS, x⟩ = bm.binaryOp Word.add := by
  have h1 : ¬ bm.stackSize < 2 := by omega
  simp [Bm.ExecuteInst, INST_PLUS, INST_PUSH, h1]

theorem ExecuteInst_minus (bm : Bm) (x : Word) (h : 2 ≤ bm.stackSize) :
    bm.ExecuteInst ⟨INST_MINUS, x⟩ = bm.binaryOp Word.sub := by
  have h1 : ¬ bm.stackSize < 2 := by omega
  simp [Bm.ExecuteInst, INST_MINUS, INST_PLUS, INST_PUSH, h1]

theorem ExecuteInst_mult (bm : Bm) (x : Word) (h : 2 ≤ bm.stackSize) :
    bm.ExecuteInst ⟨INST_MULT, x⟩ = bm.binaryOp Word.mul := by
  have h1 : ¬ bm.stackSize < 2 := by omega
  simp [Bm.ExecuteInst, INST_MULT, INST_MINUS, INST_PLUS, INST_PUSH, h1]

theorem ExecuteInst_div (bm : Bm) (x b : Word) (h : 2 ≤ bm.stackSize)
    (hb : sliceGet bm.stack (bm.stackSize - 1) = some b) :
    bm.ExecuteInst ⟨INST_DIV, x⟩ =
      if b = 0 then .ret bm (some ErrDivideByZero) else bm.binaryOp Word.quo := by
  have h1 : ¬ bm.stackSize < 2 := by omega
  simp [Bm.ExecuteInst, INST_DIV, INST_MULT, INST_MINUS, INST_PLUS, INST_PUSH, h1, hb]

theorem ExecuteInst_underflow (bm : Bm) (k : InstType) (x : Word)
    (hk : k = INST_PLUS ∨ k = INST_MINUS ∨ k = INST_MULT ∨ k = INST_DIV)
    (h : bm.stackSize < 2) :
    bm.ExecuteInst ⟨k, x⟩ = .ret bm (some ErrStackUnderflow) := by
  rcases hk with hk | hk | hk | hk <;> subst hk <;>
    simp [Bm.ExecuteInst, INST_DIV, INST_MULT, INST_MINUS, INST_PLUS, INST_PUSH, h]

/-- What the arithmetic body leaves behind on a stack `[..., a, b]` of size
`n`: the size is `n - 1`, slot `n - 2` holds `op a b`, and the slots below
are as before. -/
theorem binaryOp_post (bm : Bm) (op : Word → Word → Word) (n : Nat) (a b : Word)
    (hsize : bm.stackSize = n) (h2 : 2 ≤ n)
    (ha : bm.stack[n - 2]? = some a) (hb : bm.stack[n - 1]? = some b) :
    ∃ bm1, bm.binaryOp op = .ret bm1 none ∧ bm1.stackSize = (n : Int) - 1 ∧
      bm1.stack[n - 2]? = some (op a b) ∧
      (∀ i, i < n - 2 → bm1.stack[i]? = bm.stack[i]?) ∧
      bm1.stack.length = bm.stack.length ∧ bm1.ip = bm.ip ∧ bm1.halted = bm.halted := by
  refine ⟨_, binaryOp_eq bm op n a b hsize h2 ha hb, rfl, ?_, ?_, ?_, rfl, rfl⟩
  · exact List.getElem?_set_self (lt_length_of_getElem? ha)
  · intro i hi
    exact List.getElem?_set_ne (by omega)
  · exact List.length_set _ _ _

/-! ## Per-instruction contracts -/

/-- C1. Arithmetic correctness of Add, Sub and Mul: in a state of size
`n ≥ 2` whose two topmost live elements are `a = stack[n-2]` and
`b = stack[n-1]`, `ExecuteInst` of `INST_PLUS`, `INST_MINUS`, `INST_MULT`
returns no error, leaves the size at `n - 1`, stores `a + b`, `a - b`,
`a * b` (in `int64` arithmetic, `a` being the left operand) in slot `n - 2`,
and leaves every slot below `n - 2` unchanged. -/
theorem ExecuteInst_arith_correct (bm : Bm) (n : Nat) (a b x : Word)
    (hsize : bm.stackSize = n) (h2 : 2 ≤ n) (hcap : n ≤ 1024)
    (ha : bm.stack[n - 2]? = some a) (hb : bm.stack[n - 1]? = some b) :
    (∃ bm1, bm.ExecuteInst ⟨INST_PLUS, x⟩ = .ret bm1 none ∧
        bm1.stackSize = (n : Int) - 1 ∧
        bm1.stack[n - 2]? = some (wrapWord (a + b)) ∧
        ∀ i, i < n - 2 → bm1.stack[i]? = bm.stack[i]?) ∧
    (∃ bm1, bm.ExecuteInst ⟨INST_MINUS, x⟩ = .ret bm1 none ∧
        bm1.stackSize = (n : Int) - 1 ∧
        bm1.stack[n - 2]? = some (wrapWord (a - b)) ∧
        ∀ i, i < n - 2 → bm1.stack[i]? = bm.stack[i]?) ∧
    (∃ bm1, bm.ExecuteInst ⟨INST_MULT, x⟩ = .ret bm1 none ∧
        bm1.stackSize = (n : Int) - 1 ∧
        bm1.stack[n - 2]? = some (wrapWord (a * b)) ∧
        ∀ i, i < n - 2 → bm1.stack[i]? = bm.stack[i]?) := by
  have hs : 2 ≤ bm.stackSize := by omega
  refine ⟨?_, ?_, ?_⟩
  · obtain ⟨bm1, h, p1, p2, p3, _⟩ := binaryOp_post bm Word.add n a b hsize h2 ha hb
    exact ⟨bm1, by rw [ExecuteInst_plus bm x hs, h], p1, p2, p3⟩
  · obtain ⟨bm1, h, p1, p2, p3, _⟩ := binaryOp_post bm Word.sub n a b hsize h2 ha hb
    exact ⟨bm1, by rw [ExecuteInst_minus bm x hs, h], p1, p2, p3⟩
  · obtain ⟨bm1, h, p1, p2, p3, _⟩ := binaryOp_post bm Word.mul n a b hsize h2 ha hb
    exact ⟨bm1, by rw [ExecuteInst_mult bm x hs, h], p1, p2, p3⟩

theorem ExecuteInst_arith_correct_witness :
    sampleTwo.stackSize = (2 : Nat) ∧ 2 ≤ 2 ∧ 2 ≤ 1024 ∧
    sampleTwo.stack[2 - 2]? = some (-7) ∧ sampleTwo.stack[2 - 1]? = some 2 ∧
    (∃ bm1, sampleTwo.ExecuteInst ⟨INST_PLUS, 0⟩ = .ret bm1 none ∧
        bm1.stackSize = ((2 : Nat) : Int) - 1 ∧
        bm1.stack[2 - 2]? = some (wrapWord (-7 + 2)) ∧
        ∀ i, i < 2 - 2 → bm1.stack[i]? = sampleTwo.stack[i]?) ∧
    (∃ bm1, sampleTwo.ExecuteInst ⟨INST_MINUS, 0⟩ = .ret bm1 none ∧
        bm1.stackSize = ((2 : Nat) : Int) - 1 ∧
        bm1.stack[2 - 2]? = some (wrapWord (-7 - 2)) ∧
        ∀ i, i < 2 - 2 → bm1.stack[i]? = sampleTwo.stack[i]?) ∧
    (∃ bm1, sampleTwo.ExecuteInst ⟨INST_MULT, 0⟩ = .ret bm1 none ∧
        bm1.stackSize = ((2 : Nat) : Int) - 1 ∧
        bm1.stack[2 - 2]? = some (wrapWord (-7 * 2)) ∧
        ∀ i, i < 2 - 2 → bm1.stack[i]? = sampleTwo.stack[i]?) :=
  ⟨rfl, by decide, by decide, rfl, rfl,
    ExecuteInst_arith_correct sampleTwo 2 (-7) 2 0 rfl (by decide) (by decide) rfl rfl⟩

/-- C2. Div correctness: in a state of size `n ≥ 2` whose two topmost live
elements are `a = stack[n-2]` and `b = stack[n-1]` with `b ≠ 0`, `ExecuteInst`
of `INST_DIV` returns no error, leaves the size at `n - 1`, stores the `int64`
quotient of the dividend `a` by the divisor `b` in slot `n - 2`, and leaves
every slot below `n - 2` unchanged.  The `int64` quotient is the exact
quotient truncated toward zero whenever that is representable, that is,
except for `a = -2^63`, `b = -1`; and `-7 / 2 = -3`, `7 / -2 = -3`. -/
theorem ExecuteInst_div_correct (bm : Bm) (n : Nat) (a b x : Word)
    (hsize : bm.stackSize = n) (h2 : 2 ≤ n)
    (ha : bm.stack[n - 2]? = some a) (hb : bm.stack[n - 1]? = some b)
    (hb0 : b ≠ 0) :
    (∃ bm1, bm.ExecuteInst ⟨INST_DIV, x⟩ = .ret bm1 none ∧
        bm1.stackSize = (n : Int) - 1 ∧
        bm1.stack[n - 2]? = some (Word.quo a b) ∧
        (isWord a → ¬ (a = WORD_MIN ∧ b = -1) →
          bm1.stack[n - 2]? = some (Int.tdiv a b)) ∧
        ∀ i, i < n - 2 → bm1.stack[i]? = bm.stack[i]?) ∧
    Word.quo (-7) 2 = -3 ∧ Word.quo 7 (-2) = -3 := by
  have hs : 2 ≤ bm.stackSize := by omega
  have hget : sliceGet bm.stack (bm.stackSize - 1) = some b := by
    rw [sliceGet_eq bm.stack _ (n - 1) (by omega), hb]
  refine ⟨?_, by decide, by decide⟩
  obtain ⟨bm1, h, p1, p2, p3, _⟩ := binaryOp_post bm Word.quo n a b hsize h2 ha hb
  refine ⟨bm1, ?_, p1, p2, ?_, p3⟩
  · rw [ExecuteInst_div bm x b hs hget, if_neg hb0, h]
  · intro hwa hov
    rw [p2]
    unfold Word.quo
    rw [wrapWord_of_isWord _ (tdiv_isWord a b hwa hb0 hov)]

theorem ExecuteInst_div_correct_witness :
    sampleTwo.stackSize = (2 : Nat) ∧ 2 ≤ 2 ∧
    sampleTwo.stack[2 - 2]? = some (-7) ∧ sampleTwo.stack[2 - 1]? = some 2 ∧
    (2 : Word) ≠ 0 ∧
    ((∃ bm1, sampleTwo.ExecuteInst ⟨INST_DIV, 0⟩ = .ret bm1 none ∧
        bm1.stackSize = ((2 : Nat) : Int) - 1 ∧
        bm1.stack[2 - 2]? = some (Word.quo (-7) 2) ∧
        (isWord (-7) → ¬ ((-7 : Word) = WORD_MIN ∧ (2 : Word) = -1) →
          bm1.stack[2 - 2]? = some (Int.tdiv (-7) 2)) ∧
        ∀ i, i < 2 - 2 → bm1.stack[i]? = sampleTwo.stack[i]?) ∧
    Word.quo (-7) 2 = -3 ∧ Word.quo 7 (-2) = -3) :=
  ⟨rfl, by decide, rfl, rfl, by decide,
    ExecuteInst_div_correct sampleTwo 2 (-7) 2 0 rfl (by decide) rfl rfl (by decide)⟩

/-- C3. Push correctness: in a state with 1024 slots and size `n < 1024`,
`ExecuteInst` of `INST_PUSH v` returns no error, stores `v` in slot `n`, sets
the size to `n + 1`, and leaves every slot below `n`, the instruction pointer
and the halted flag unchanged. -/
theorem ExecuteInst_push_correct (bm : Bm) (n : Nat) (v : Word)
    (hlen : bm.stack.length = 1024) (hsize : bm.stackSize = n) (hcap : n < 1024) :
    ∃ bm1, bm.ExecuteInst ⟨INST_PUSH, v⟩ = .ret bm1 none ∧
      bm1.stack[n]? = some v ∧
      bm1.stackSize = (n : Int) + 1 ∧
      (∀ i, i < n → bm1.stack[i]? = bm.stack[i]?) ∧
      bm1.ip = bm.ip ∧ bm1.halted = bm.halted := by
  refine ⟨_, push_eq bm n v hsize hcap (by omega), ?_, rfl, ?_, rfl, rfl⟩
  · exact List.getElem?_set_self (by omega)
  · intro i hi
    exact List.getElem?_set_ne (by omega)

theorem ExecuteInst_push_correct_witness :
    sampleTwo.stack.length = 1024 ∧ sampleTwo.stackSize = (2 : Nat) ∧ 2 < 1024 ∧
    ∃ bm1, sampleTwo.ExecuteInst ⟨INST_PUSH, 42⟩ = .ret bm1 none ∧
      bm1.stack[2]? = some 42 ∧
      bm1.stackSize = ((2 : Nat) : Int) + 1 ∧
      (∀ i, i < 2 → bm1.stack[i]? = sampleTwo.stack[i]?) ∧
      bm1.ip = sampleTwo.ip ∧ bm1.halted = sampleTwo.halted :=
  ⟨by decide, rfl, by decide,
    ExecuteInst_push_correct sampleTwo 2 42 (by decide) rfl (by decide)⟩

/-- C4. Overflow boundary: in a state of size 1024 (`STACK_CAPACITY`),
`ExecuteInst` of `INST_PUSH v` returns `ErrStackOverflow` and the state after
the call is the state before it. -/
theorem ExecuteInst_push_overflow (bm : Bm) (v : Word)
    (hsize : bm.stackSize = 1024) :
    STACK_CAPACITY = 1024 ∧
    bm.ExecuteInst ⟨INST_PUSH, v⟩ = .ret bm (some ErrStackOverflow) := by
  have h1 : bm.stackSize ≥ STACK_CAPACITY := by
    unfold STACK_CAPACITY
    omega
  exact ⟨rfl, by simp only [Bm.ExecuteInst, if_true, if_pos h1]⟩

theorem ExecuteInst_push_overflow_witness :
    sampleFull.stackSize = 1024 ∧ STACK_CAPACITY = 1024 ∧
    sampleFull.ExecuteInst ⟨INST_PUSH, 7⟩ = .ret sampleFull (some ErrStackOverflow) :=
  ⟨rfl, ExecuteInst_push_overflow sampleFull 7 rfl⟩

/-- C5. Underflow boundary: in a state of size below 2, `ExecuteInst` of
`INST_PLUS`, `INST_MINUS`, `INST_MULT` or `INST_DIV` returns
`ErrStackUnderflow` and the state after the call is the state before it; in
particular `INST_DIV` on a one-element stack whose element is `0` returns
`ErrStackUnderflow`, not `ErrDivideByZero`. -/
theorem ExecuteInst_arith_underflow (bm : Bm) (x : Word) (hsize : bm.stackSize < 2) :
    bm.ExecuteInst ⟨INST_PLUS, x⟩ = .ret bm (some ErrStackUnderflow) ∧
    bm.ExecuteInst ⟨INST_MINUS, x⟩ = .ret bm (some ErrStackUnderflow) ∧
    bm.ExecuteInst ⟨INST_MULT, x⟩ = .ret bm (some ErrStackUnderflow) ∧
    bm.ExecuteInst ⟨INST_DIV, x⟩ = .ret bm (some ErrStackUnderflow) ∧
    (bm.stackSize = 1 → bm.stack[0]? = some 0 →
      bm.ExecuteInst ⟨INST_DIV, x⟩ ≠ .ret bm (some ErrDivideByZero)) := by
  have hd := ExecuteInst_underflow bm INST_DIV x (by simp) hsize
  refine ⟨ExecuteInst_underflow bm INST_PLUS x (by simp) hsize,
    ExecuteInst_underflow bm INST_MINUS x (by simp) hsize,
    ExecuteInst_underflow bm INST_MULT x (by simp) hsize, hd, ?_⟩
  intro _ _ h
  rw [hd] at h
  cases h

theorem ExecuteInst_arith_underflow_witness :
    sampleOne.stackSize < 2 ∧
    (sampleOne.ExecuteInst ⟨INST_PLUS, 0⟩ = .ret sampleOne (some ErrStackUnderflow) ∧
    sampleOne.ExecuteInst ⟨INST_MINUS, 0⟩ = .ret sampleOne (some ErrStackUnderflow) ∧
    sampleOne.ExecuteInst ⟨INST_MULT, 0⟩ = .ret sampleOne (some ErrStackUnderflow) ∧
    sampleOne.ExecuteInst ⟨INST_DIV, 0⟩ = .ret sampleOne (some ErrStackUnderflow) ∧
    (sampleOne.stackSize = 1 → sampleOne.stack[0]? = some 0 →
      sampleOne.ExecuteInst ⟨INST_DIV, 0⟩ ≠ .ret sampleOne (some ErrDivideByZero))) :=
  ⟨by decide, ExecuteInst_arith_underflow sampleOne 0 (by decide)⟩

/-- C6. Divide-by-zero: in a state of size `n ≥ 2` whose top element
`stack[n-1]` is `0`, `ExecuteInst` of `INST_DIV` returns `ErrDivideByZero`
and the state after the call is the state before it. -/
theorem ExecuteInst_div_by_zero (bm : Bm) (n : Nat) (x : Word)
    (hsize : bm.stackSize = n) (h2 : 2 ≤ n) (hb : bm.stack[n - 1]? = some 0) :
    bm.ExecuteInst ⟨INST_DIV, x⟩ = .ret bm (some ErrDivideByZero) := by
  have hs : 2 ≤ bm.stackSize := by omega
  have hget : sliceGet bm.stack (bm.stackSize - 1) = some 0 := by
    rw [sliceGet_eq bm.stack _ (n - 1) (by omega), hb]
  rw [ExecuteInst_div bm x 0 hs hget, if_pos rfl]

theorem ExecuteInst_div_by_zero_witness :
    sampleZeroTop.stackSize = (2 : Nat) ∧ 2 ≤ 2 ∧ sampleZeroTop.stack[2 - 1]? = some 0 ∧
    sampleZeroTop.ExecuteInst ⟨INST_DIV, 0⟩ = .ret sampleZeroTop (some ErrDivideByZero) :=
  ⟨rfl, by decide, rfl, ExecuteInst_div_by_zero sampleZeroTop 2 0 rfl (by decide) rfl⟩

/-- C7. No partial side effects on failure: for every state and every
instruction (any kind value, any operand), if `ExecuteInst` returns a non-nil
error then the state after the call equals the state before it. -/
theorem ExecuteInst_error_unchanged (bm bm1 : Bm) (inst : Inst) (e : VmError)
    (h : bm.ExecuteInst inst = .ret bm1 (some e)) : bm1 = bm := by
  unfold Bm.ExecuteInst at h
  repeat' split at h
  all_goals first
    | (injection h with h1 _; exact h1.symm)
    | exact absurd h (binaryOp_not_err _ _ _ _)
    | cases h

theorem ExecuteInst_error_unchanged_witness :
    sampleOne.ExecuteInst ⟨INST_PLUS, 0⟩ = .ret sampleOne (some ErrStackUnderflow) ∧
    sampleOne = sampleOne :=
  ⟨by decide,
    ExecuteInst_error_unchanged sampleOne sampleOne ⟨INST_PLUS, 0⟩ ErrStackUnderflow
      (by decide)⟩

/-! ## Running instruction sequences -/

theorem execAll_cons_ok (bm bm1 : Bm) (inst : Inst) (rest : List Inst)
    (h : bm.ExecuteInst inst = .ret bm1 none) :
    execAll bm (inst :: rest) = execAll bm1 rest := by
  simp only [execAll, h]

/-- Pushing the values `vs` one after another onto a machine of size `k`
with room for all of them. -/
theorem execAll_pushes (vs : List Word) : ∀ (bm : Bm) (k : Nat),
    bm.stack.length = 1024 → bm.stackSize = k → k + vs.length ≤ 1024 →
    ∃ bm1, execAll bm (vs.map (fun v => (⟨INST_PUSH, v⟩ : Inst))) = .ret bm1 none ∧
      bm1.stack.length = 1024 ∧ bm1.stackSize = ((k + vs.length : Nat) : Int) ∧
      (∀ i, i < k → bm1.stack[i]? = bm.stack[i]?) ∧
      (∀ i, i < vs.length → bm1.stack[k + i]? = vs[i]?) ∧
      bm1.ip = bm.ip ∧ bm1.halted = bm.halted := by
  induction vs with
  | nil =>
    intro bm k hlen hsize _
    exact ⟨bm, rfl, hlen, by simpa using hsize, fun _ _ => rfl,
      fun i hi => absurd hi (Nat.not_lt_zero i), rfl, rfl⟩
  | cons v vs ih =>
    intro bm k hlen hsize hroom
    simp only [List.length_cons] at hroom
    have hstep := push_eq bm k v hsize (by omega) (by omega)
    obtain ⟨bm1, hrun, hl1, hs1, hlow, hnew, hip, hh⟩ :=
      ih { bm with stack := bm.stack.set k v, stackSize := (k : Int) + 1 } (k + 1)
        (by simp [hlen]) (by simp) (by omega)
    refine ⟨bm1, ?_, hl1, ?_, ?_, ?_, hip, hh⟩
    · rw [List.map_cons, execAll_cons_ok _ _ _ _ hstep, hrun]
    · rw [hs1]
      simp only [List.length_cons]
      omega
    · intro i hi
      rw [hlow i (by omega)]
      exact List.getElem?_set_ne (by omega)
    · intro i hi
      cases i with
      | zero =>
        rw [Nat.add_zero, hlow k (by omega)]
        simp only [List.getElem?_cons_zero]
        exact List.getElem?_set_self (by omega)
      | succ j =>
        simp only [List.length_cons] at hi
        have := hnew j (by omega)
        rw [List.getElem?_cons_succ, ← this]
        congr 1
        omega

/-- C8. End-to-end scenario: from the state produced by `Init`, applying
`ExecuteInst` to the ten instructions of the shipped program in order, every
call returns no error, and the final state has size 1, `stack[0] = 223` and
`halted = true`. -/
theorem program_end_to_end :
    program =
      [⟨INST_PUSH, 69⟩, ⟨INST_PUSH, 420⟩, ⟨INST_PLUS, 0⟩, ⟨INST_PUSH, 42⟩, ⟨INST_MINUS, 0⟩,
        ⟨INST_PUSH, 2⟩, ⟨INST_MULT, 0⟩, ⟨INST_PUSH, 4⟩, ⟨INST_DIV, 0⟩, ⟨INST_HALT, 0⟩] ∧
    ∃ bm1, execAll (Bm.Init Bm.zero) program = .ret bm1 none ∧
      bm1.stackSize = 1 ∧ bm1.stack[0]? = some 223 ∧ bm1.live = [223] ∧
      bm1.halted = true :=
  ⟨rfl, { stack := 223 :: 4 :: List.replicate 1022 0, stackSize := 1, ip := 0, halted := true },
    by decide, rfl, rfl, rfl, rfl⟩

/-- C10. Push/pop balance: for every list `vs` of at most 1024 values,
applying `ExecuteInst` of `INST_PUSH v` for each `v` of `vs` in order to the
state produced by `Init` returns no error at any step and ends with size
`vs.length` and `stack[i] = vs[i]` for every `i < vs.length`: the live stack,
bottom to top, is `vs`. -/
theorem push_balance (bm0 : Bm) (vs : List Word) (hN : vs.length ≤ 1024) :
    ∃ bm1, execAll (Bm.Init bm0) (vs.map (fun v => (⟨INST_PUSH, v⟩ : Inst))) = .ret bm1 none ∧
      bm1.stackSize = (vs.length : Int) ∧
      (∀ i, i < vs.length → bm1.stack[i]? = vs[i]?) ∧
      bm1.live = vs := by
  obtain ⟨bm1, hrun, hl1, hs1, _, hnew, _, _⟩ :=
    execAll_pushes vs (Bm.Init bm0) 0 (by simp [Bm.Init, STACK_CAPACITY]) rfl (by omega)
  have hs : bm1.stackSize = (vs.length : Int) := by
    rw [hs1]
    simp
  have hslots : ∀ i, i < vs.length → bm1.stack[i]? = vs[i]? := by
    intro i hi
    have := hnew i hi
    rwa [Nat.zero_add] at this
  refine ⟨bm1, hrun, hs, hslots, ?_⟩
  apply List.ext_getElem?
  intro i
  unfold Bm.live
  rw [hs, Int.toNat_ofNat]
  by_cases hi : i < vs.length
  · rw [List.getElem?_take_of_lt hi, hslots i hi]
  · rw [List.getElem?_take_eq_none (by omega), List.getElem?_eq_none (by omega)]

theorem push_balance_witness :
    [3, 5, 7].length ≤ 1024 ∧
    ∃ bm1, execAll (Bm.Init Bm.zero)
        ([3, 5, 7].map (fun v => (⟨INST_PUSH, v⟩ : Inst))) = .ret bm1 none ∧
      bm1.stackSize = (([3, 5, 7] : List Word).length : Int) ∧
      (∀ i, i < [3, 5, 7].length → bm1.stack[i]? = ([3, 5, 7] : List Word)[i]?) ∧
      bm1.live = [3, 5, 7] :=
  ⟨by decide, push_balance Bm.zero [3, 5, 7] (by decide)⟩

/-! ## The loop of `main` -/

/-- Once the loop has ended within `fuel` iterations, a larger budget gives
the same run. -/
theorem mainLoop_fuel_mono (prog : List Inst) : ∀ (fuel : Nat) (bm : Bm) (extra : Nat),
    (∀ b, (mainLoop prog fuel bm).2 ≠ .running b) →
    mainLoop prog (fuel + extra) bm = mainLoop prog fuel bm := by
  intro fuel
  induction fuel with
  | zero =>
    intro bm extra h
    have hh : bm.halted = true := by
      by_contra hn
      exact h bm (by simp [mainLoop, hn])
    cases extra with
    | zero => rfl
    | succ e => simp [mainLoop, hh]
  | succ fuel ih =>
    intro bm extra h
    rw [Nat.add_right_comm]
    by_cases hh : bm.halted = true
    · simp [mainLoop, hh]
    · cases hf : fetch prog bm.ip with
      | none => simp [mainLoop, hh, hf]
      | some inst =>
        cases hn : InstTypeName inst.typ with
        | none => simp [mainLoop, hh, hf, hn]
        | some name =>
          cases hex : bm.ExecuteInst inst with
          | panic => simp [mainLoop, hh, hf, hn, hex]
          | ret bm1 err =>
            cases err with
            | some e => simp [mainLoop, hh, hf, hn, hex]
            | none =>
              have h1 : ∀ b, (mainLoop prog fuel bm1).2 ≠ .running b := by
                intro b
                have := h b
                simpa [mainLoop, hh, hf, hn, hex] using this
              simp [mainLoop, hh, hf, hn, hex, ih bm1 extra h1]

/-- A loop whose instruction pointer stays at a `Push`: from size `k` it
pushes until the stack is full and the next `Push` overflows. -/
theorem mainLoop_push_until_full (prog : List Inst) (v : Word)
    (hprog : fetch prog 0 = some ⟨INST_PUSH, v⟩) : ∀ (m : Nat) (bm : Bm) (k : Nat),
    bm.stack.length = 1024 → bm.stackSize = k → k + m = 1024 →
    bm.ip = 0 → bm.halted = false →
    ∃ bm1, mainLoop prog (m + 1) bm =
        (List.replicate (m + 1) 0, .exit1 ErrStackOverflow bm1) ∧
      bm1.stack.length = 1024 ∧ bm1.stackSize = 1024 ∧ bm1.ip = 0 ∧ bm1.halted = false ∧
      (∀ i, i < k → bm1.stack[i]? = bm.stack[i]?) ∧
      (∀ i, k ≤ i → i < 1024 → bm1.stack[i]? = some v) := by
  have hname : InstTypeName INST_PUSH = some "INST_PUSH" := by decide
  intro m
  induction m with
  | zero =>
    intro bm k hlen hsize hkm hip hh
    have hfull : bm.stackSize = 1024 := by omega
    have hex : bm.ExecuteInst ⟨INST_PUSH, v⟩ = .ret bm (some ErrStackOverflow) := by
      have h1 : bm.stackSize ≥ STACK_CAPACITY := by
        unfold STACK_CAPACITY
        omega
      simp only [Bm.ExecuteInst, if_true, if_pos h1]
    refine ⟨bm, ?_, hlen, hfull, hip, hh, fun _ _ => rfl, ?_⟩
    · simp [mainLoop, hh, hip, hprog, hname, hex]
    · intro i hki hi
      omega
  | succ m ih =>
    intro bm k hlen hsize hkm hip hh
    have hex := push_eq bm k v hsize (by omega) (by omega)
    obtain ⟨bm1, hrun, hl1, hs1, hip1, hh1, hlow, hnew⟩ :=
      ih { bm with stack := bm.stack.set k v, stackSize := (k : Int) + 1 } (k + 1)
        (by simp [hlen]) (by simp) (by omega) hip hh
    refine ⟨bm1, ?_, hl1, hs1, hip1, hh1, ?_, ?_⟩
    · rw [hip, hh] at hrun
      rw [mainLoop]
      simp only [hh, hip, hprog, hname, hex, hrun]
      simp [List.replicate_succ]
    · intro i hi
      rw [hlow i (by omega)]
      exact List.getElem?_set_ne (by omega)
    · intro i hki hi
      by_cases hik : i = k
      · subst hik
        rw [hlow i (by omega)]
        exact List.getElem?_set_self (by omega)
      · exact hnew i (by omega) hi

/-- The run of `main` ends in a stack overflow: with a budget of 1025
iterations or more the loop fetches with `ip = 0` in every one of its 1025
iterations, fills the stack with 69 and leaves through `os.Exit(1)`. -/
theorem main_run (extra : Nat) :
    main (1025 + extra) = (List.replicate 1025 0, .exit1 ErrStackOverflow sampleFull) := by
  obtain ⟨bm1, hrun, hl1, hs1, hip1, hh1, _, hnew⟩ :=
    mainLoop_push_until_full program 69 (by decide) 1024 (Bm.Init Bm.zero) 0
      (by simp [Bm.Init, STACK_CAPACITY]) rfl (by omega) rfl rfl
  have hstack : bm1.stack = List.replicate 1024 69 := by
    apply List.ext_getElem?
    intro i
    by_cases hi : i < 1024
    · rw [hnew i (by omega) hi, List.getElem?_replicate_of_lt hi]
    · rw [List.getElem?_eq_none (by omega), List.getElem?_eq_none (by simp; omega)]
  have hbm : bm1 = sampleFull := by
    cases bm1
    simp only [sampleFull] at *
    simp [hstack, hs1, hip1, hh1]
  rw [hbm] at hrun
  unfold main
  rw [mainLoop_fuel_mono program 1025 _ extra, hrun]
  intro b
  rw [hrun]
  simp

/-- C9 (the code at the shipped program). The loop of `main` never advances
the instruction pointer: every iteration fetches `program[0]`, which is
`Push 69`.  With any budget of at least 1025 iterations the run consists of
exactly 1025 iterations, all with `ip = 0`; the last one returns
`ErrStackOverflow` and `main` leaves through `os.Exit(1)` with
`stackSize = 1024`, `ip = 0` and `halted = false`.  No budget lets the loop
end with `halted = true`. -/
theorem main_stack_overflow :
    program[0]? = some ⟨INST_PUSH, 69⟩ ∧
    (∀ extra : Nat,
      main (1025 + extra) = (List.replicate 1025 0, .exit1 ErrStackOverflow sampleFull)) ∧
    sampleFull.stackSize = 1024 ∧ sampleFull.ip = 0 ∧ sampleFull.halted = false ∧
    (∀ (fuel : Nat) (bm : Bm), (main fuel).2 ≠ .returned bm) := by
  refine ⟨rfl, main_run, rfl, rfl, rfl, ?_⟩
  intro fuel bm h
  have hmono : main (fuel + 1025) = main fuel := by
    unfold main at h ⊢
    apply mainLoop_fuel_mono
    intro b
    rw [h]
    simp
  have hrun := main_run fuel
  rw [Nat.add_comm, hmono] at hrun
  rw [hrun] at h
  cases h

/-! ## Frame and invariant lemmas -/

theorem sliceSet_length (s t : List Word) (i : Int) (v : Word)
    (h : sliceSet s i v = some t) : t.length = s.length := by
  unfold sliceSet at h
  split at h
  · injection h with h1
    rw [← h1, List.length_set]
  · cases h

theorem binaryOp_frame (bm bm1 : Bm) (op : Word → Word → Word) (e : Option VmError)
    (h : bm.binaryOp op = .ret bm1 e) :
    bm1.ip = bm.ip ∧ bm1.halted = bm.halted ∧ bm1.stack.length = bm.stack.length ∧
      bm1.stackSize = bm.stackSize - 1 := by
  unfold Bm.binaryOp at h
  split at h
  · split at h
    · rename_i t ht
      injection h with h1 _
      subst h1
      exact ⟨rfl, rfl, sliceSet_length _ _ _ _ ht, rfl⟩
    · cases h
  · cases h

/-- What every returning call of `ExecuteInst` preserves: the instruction
pointer, the number of slots, and a set halted flag. -/
theorem ExecuteInst_frame (bm bm1 : Bm) (inst : Inst) (e : Option VmError)
    (h : bm.ExecuteInst inst = .ret bm1 e) :
    bm1.ip = bm.ip ∧ (bm.halted = true → bm1.halted = true) ∧
      bm1.stack.length = bm.stack.length := by
  unfold Bm.ExecuteInst at h
  repeat' split at h
  all_goals first
    | (injection h with h1 _; subst h1; exact ⟨rfl, fun hh => hh, rfl⟩)
    | (injection h with h1 _; subst h1; exact ⟨rfl, fun _ => rfl, rfl⟩)
    | (rename_i t ht; injection h with h1 _; subst h1
       exact ⟨rfl, fun hh => hh, sliceSet_length _ _ _ _ ht⟩)
    | cases h
    | (obtain ⟨p1, p2, p3, _⟩ := binaryOp_frame _ _ _ _ h
       exact ⟨p1, fun hh => by rw [p2]; exact hh, p3⟩)

theorem callAll_halted (insts : List Inst) : ∀ (bm bm1 : Bm),
    bm.halted = true → callAll bm insts = some bm1 → bm1.halted = true := by
  induction insts with
  | nil =>
    intro bm bm1 hh h
    simp only [callAll] at h
    injection h with h1
    rw [← h1]
    exact hh
  | cons inst rest ih =>
    intro bm bm1 hh h
    cases hex : bm.ExecuteInst inst with
    | panic =>
      simp only [callAll, hex] at h
      cases h
    | ret bm2 e =>
      simp only [callAll, hex] at h
      exact ih bm2 bm1 ((ExecuteInst_frame bm bm2 inst e hex).2.1 hh) h

/-! ## Illegal instructions, halt, frame properties -/

theorem undeclared_kind_ne (k : Int) (hk : k = 5 ∨ k < 0 ∨ 6 < k) :
    k ≠ 0 ∧ k ≠ 1 ∧ k ≠ 2 ∧ k ≠ 3 ∧ k ≠ 4 ∧ k ≠ 6 := by
  omega

/-- C11. Illegal instruction: for every state and every instruction whose
kind is `INST_JMP` or lies outside the seven declared kinds (negative or
above 6), with any operand, `ExecuteInst` returns `ErrIllegalInst` and the
state after the call is the state before it. -/
theorem ExecuteInst_illegal (bm : Bm) (k : InstType) (x : Word)
    (hk : k = INST_JMP ∨ k < 0 ∨ 6 < k) :
    bm.ExecuteInst ⟨k, x⟩ = .ret bm (some ErrIllegalInst) := by
  obtain ⟨h0, h1, h2, h3, h4, h6⟩ := undeclared_kind_ne k hk
  have g0 : k ≠ INST_PUSH := h0
  have g1 : k ≠ INST_PLUS := h1
  have g2 : k ≠ INST_MINUS := h2
  have g3 : k ≠ INST_MULT := h3
  have g4 : k ≠ INST_DIV := h4
  have g6 : k ≠ INST_HALT := h6
  simp only [Bm.ExecuteInst, if_neg g0, if_neg g1, if_neg g2, if_neg g3, if_neg g4, if_neg g6]

theorem ExecuteInst_illegal_witness :
    (INST_JMP = INST_JMP ∨ INST_JMP < 0 ∨ 6 < INST_JMP) ∧
    sampleTwo.ExecuteInst ⟨INST_JMP, 3⟩ = .ret sampleTwo (some ErrIllegalInst) :=
  ⟨Or.inl rfl, ExecuteInst_illegal sampleTwo INST_JMP 3 (Or.inl rfl)⟩

/-- C12. Halt: for every state (halted or not, any size), `ExecuteInst` of
`INST_HALT` returns no error, sets `halted = true` and leaves the stack
slots, the size and the instruction pointer unchanged; executing `INST_HALT`
again on the resulting state returns no error and yields that same state. -/
theorem ExecuteInst_halt (bm : Bm) (x y : Word) :
    ∃ bm1, bm.ExecuteInst ⟨INST_HALT, x⟩ = .ret bm1 none ∧
      bm1.halted = true ∧ bm1.stack = bm.stack ∧ bm1.stackSize = bm.stackSize ∧
      bm1.ip = bm.ip ∧
      bm1.ExecuteInst ⟨INST_HALT, y⟩ = .ret bm1 none ∧
      execAll bm [⟨INST_HALT, x⟩, ⟨INST_HALT, y⟩] = execAll bm [⟨INST_HALT, x⟩] := by
  have hstep : ∀ (b : Bm) (z : Word),
      b.ExecuteInst ⟨INST_HALT, z⟩ = .ret { b with halted := true } none := by
    intro b z
    simp [Bm.ExecuteInst, INST_HALT, INST_DIV, INST_MULT, INST_MINUS, INST_PLUS, INST_PUSH]
  refine ⟨{ bm with halted := true }, hstep bm x, rfl, rfl, rfl, rfl, hstep _ y, ?_⟩
  simp only [execAll, hstep]

/-- C17. Initialization: for every prior state, `Init` yields the same state:
a stack of exactly 1024 slots all equal to 0, `stackSize = 0`, `ip = 0` and
`halted = false`. -/
theorem Init_state (bm bm2 : Bm) :
    Bm.Init bm = { stack := List.replicate 1024 0, stackSize := 0, ip := 0, halted := false } ∧
    (Bm.Init bm).stack.length = 1024 ∧
    (∀ i, i < 1024 → (Bm.Init bm).stack[i]? = some 0) ∧
    (Bm.Init bm).stackSize = 0 ∧ (Bm.Init bm).ip = 0 ∧ (Bm.Init bm).halted = false ∧
    Bm.Init bm = Bm.Init bm2 := by
  refine ⟨rfl, by simp [Bm.Init, STACK_CAPACITY], ?_, rfl, rfl, rfl, rfl⟩
  intro i hi
  simp only [Bm.Init, STACK_CAPACITY]
  exact List.getElem?_replicate_of_lt hi

/-- C18. Operand irrelevance: for every state, every kind other than
`INST_PUSH` and every two operands `x` and `y`, `ExecuteInst` of `(kind, x)`
and of `(kind, y)` return the same error value and leave the same state. -/
theorem ExecuteInst_operand_irrelevant (bm : Bm) (k : InstType) (x y : Word)
    (hk : k ≠ INST_PUSH) :
    bm.ExecuteInst ⟨k, x⟩ = bm.ExecuteInst ⟨k, y⟩ := by
  simp only [Bm.ExecuteInst, if_neg hk]

theorem ExecuteInst_operand_irrelevant_witness :
    INST_MINUS ≠ INST_PUSH ∧
    sampleTwo.ExecuteInst ⟨INST_MINUS, 11⟩ = sampleTwo.ExecuteInst ⟨INST_MINUS, -4⟩ :=
  ⟨by decide, ExecuteInst_operand_irrelevant sampleTwo INST_MINUS 11 (-4) (by decide)⟩

/-! ## The size invariant -/

theorem push_full_eq (bm : Bm) (v : Word) (h : 1024 ≤ bm.stackSize) :
    bm.ExecuteInst ⟨INST_PUSH, v⟩ = .ret bm (some ErrStackOverflow) := by
  have h1 : bm.stackSize ≥ STACK_CAPACITY := h
  simp only [Bm.ExecuteInst, if_true, if_pos h1]

theorem halt_eq (bm : Bm) (x : Word) :
    bm.ExecuteInst ⟨INST_HALT, x⟩ = .ret { bm with halted := true } none := by
  simp [Bm.ExecuteInst, INST_HALT, INST_DIV, INST_MULT, INST_MINUS, INST_PLUS, INST_PUSH]

theorem other_kind_eq (bm : Bm) (k : InstType) (x : Word)
    (g0 : k ≠ INST_PUSH) (g1 : k ≠ INST_PLUS) (g2 : k ≠ INST_MINUS) (g3 : k ≠ INST_MULT)
    (g4 : k ≠ INST_DIV) (g6 : k ≠ INST_HALT) :
    bm.ExecuteInst ⟨k, x⟩ = .ret bm (some ErrIllegalInst) := by
  simp only [Bm.ExecuteInst, if_neg g0, if_neg g1, if_neg g2, if_neg g3, if_neg g4, if_neg g6]

theorem sizeInv_nat (bm : Bm) (hinv : bm.sizeInv) :
    ∃ n : Nat, bm.stackSize = n ∧ n ≤ 1024 ∧ bm.stack.length = 1024 := by
  obtain ⟨hl, h0, h1⟩ := hinv
  have h2 : bm.stackSize ≤ 1024 := h1
  exact ⟨bm.stackSize.toNat, by omega, by omega, hl⟩

theorem binaryOp_of_inv (bm : Bm) (op : Word → Word → Word) (hinv : bm.sizeInv)
    (h2 : 2 ≤ bm.stackSize) : ∃ bm1, bm.binaryOp op = .ret bm1 none ∧ bm1.sizeInv := by
  obtain ⟨n, hsize, hn, hl⟩ := sizeInv_nat bm hinv
  obtain ⟨a, ha⟩ : ∃ a, bm.stack[n - 2]? = some a :=
    ⟨_, List.getElem?_eq_getElem (by omega)⟩
  obtain ⟨b, hb⟩ : ∃ b, bm.stack[n - 1]? = some b :=
    ⟨_, List.getElem?_eq_getElem (by omega)⟩
  obtain ⟨bm1, hrun, hs1, _, _, hl1, _, _⟩ :=
    binaryOp_post bm op n _ _ hsize (by omega) ha hb
  refine ⟨bm1, hrun, by omega, by omega, ?_⟩
  show bm1.stackSize ≤ 1024
  omega

/-- From a state that satisfies the size invariant every call of
`ExecuteInst` returns, and the state it leaves satisfies the invariant. -/
theorem ExecuteInst_of_inv (bm : Bm) (inst : Inst) (hinv : bm.sizeInv) :
    ∃ bm1 e, bm.ExecuteInst inst = .ret bm1 e ∧ bm1.sizeInv := by
  obtain ⟨n, hsize, hn, hl⟩ := sizeInv_nat bm hinv
  obtain ⟨k, x⟩ := inst
  by_cases g0 : k = INST_PUSH
  · subst g0
    by_cases hfull : 1024 ≤ bm.stackSize
    · exact ⟨bm, _, push_full_eq bm x hfull, hinv⟩
    · refine ⟨_, none, push_eq bm n x hsize (by omega) (by omega), ?_, ?_, ?_⟩
      · simp [hl]
      · show (0 : Int) ≤ n + 1
        omega
      · show (n : Int) + 1 ≤ 1024
        omega
  by_cases hlow : bm.stackSize < 2
  · by_cases g1 : k = INST_PLUS
    · exact ⟨bm, _, ExecuteInst_underflow bm k x (Or.inl g1) hlow, hinv⟩
    by_cases g2 : k = INST_MINUS
    · exact ⟨bm, _, ExecuteInst_underflow bm k x (Or.inr (Or.inl g2)) hlow, hinv⟩
    by_cases g3 : k = INST_MULT
    · exact ⟨bm, _, ExecuteInst_underflow bm k x (Or.inr (Or.inr (Or.inl g3))) hlow, hinv⟩
    by_cases g4 : k = INST_DIV
    · exact ⟨bm, _, ExecuteInst_underflow bm k x (Or.inr (Or.inr (Or.inr g4))) hlow, hinv⟩
    by_cases g6 : k = INST_HALT
    · subst g6
      exact ⟨_, none, halt_eq bm x, hinv⟩
    · exact ⟨bm, _, other_kind_eq bm k x g0 g1 g2 g3 g4 g6, hinv⟩
  · have hs : 2 ≤ bm.stackSize := by omega
    by_cases g1 : k = INST_PLUS
    · subst g1
      obtain ⟨bm1, h, hi⟩ := binaryOp_of_inv bm Word.add hinv hs
      exact ⟨bm1, none, by rw [ExecuteInst_plus bm x hs, h], hi⟩
    by_cases g2 : k = INST_MINUS
    · subst g2
      obtain ⟨bm1, h, hi⟩ := binaryOp_of_inv bm Word.sub hinv hs
      exact ⟨bm1, none, by rw [ExecuteInst_minus bm x hs, h], hi⟩
    by_cases g3 : k = INST_MULT
    · subst g3
      obtain ⟨bm1, h, hi⟩ := binaryOp_of_inv bm Word.mul hinv hs
      exact ⟨bm1, none, by rw [ExecuteInst_mult bm x hs, h], hi⟩
    by_cases g4 : k = INST_DIV
    · subst g4
      obtain ⟨b, hget⟩ : ∃ b, sliceGet bm.stack (bm.stackSize - 1) = some b := by
        rw [sliceGet_eq bm.stack _ (n - 1) (by omega)]
        exact ⟨_, List.getElem?_eq_getElem (by omega)⟩
      rw [ExecuteInst_div bm x b hs hget]
      split
      · exact ⟨bm, _, rfl, hinv⟩
      · obtain ⟨bm1, h, hi⟩ := binaryOp_of_inv bm Word.quo hinv hs
        exact ⟨bm1, none, h, hi⟩
    by_cases g6 : k = INST_HALT
    · subst g6
      exact ⟨_, none, halt_eq bm x, hinv⟩
    · exact ⟨bm, _, other_kind_eq bm k x g0 g1 g2 g3 g4 g6, hinv⟩

theorem callAll_of_inv (insts : List Inst) : ∀ (bm : Bm), bm.sizeInv →
    ∃ bm1, callAll bm insts = some bm1 ∧ bm1.sizeInv := by
  induction insts with
  | nil =>
    intro bm hinv
    exact ⟨bm, rfl, hinv⟩
  | cons inst rest ih =>
    intro bm hinv
    obtain ⟨bm2, e, hex, hi2⟩ := ExecuteInst_of_inv bm inst hinv
    obtain ⟨bm1, hrun, hi1⟩ := ih bm2 hi2
    exact ⟨bm1, by simp only [callAll, hex, hrun], hi1⟩

theorem Init_sizeInv (bm0 : Bm) : (Bm.Init bm0).sizeInv := by
  refine ⟨by simp [Bm.Init, STACK_CAPACITY], ?_, ?_⟩
  · show (0 : Int) ≤ 0
    omega
  · show (0 : Int) ≤ 1024
    omega

/-- C13. Size invariant: `Init` establishes `0 ≤ stackSize ≤ 1024` with a
stack of exactly 1024 slots; from every state that satisfies it, every
instruction (any kind, any operand) makes `ExecuteInst` return, with or
without an error, a state that satisfies it again; hence it holds in every
state reached from `Init` by any sequence of `ExecuteInst` calls. -/
theorem size_invariant (bm0 : Bm) :
    ((Bm.Init bm0).stack.length = 1024 ∧ 0 ≤ (Bm.Init bm0).stackSize ∧
      (Bm.Init bm0).stackSize ≤ 1024) ∧
    (∀ (bm : Bm) (inst : Inst),
      bm.stack.length = 1024 ∧ 0 ≤ bm.stackSize ∧ bm.stackSize ≤ 1024 →
      ∃ bm1 e, bm.ExecuteInst inst = .ret bm1 e ∧
        bm1.stack.length = 1024 ∧ 0 ≤ bm1.stackSize ∧ bm1.stackSize ≤ 1024) ∧
    (∀ insts : List Inst, ∃ bm1, callAll (Bm.Init bm0) insts = some bm1 ∧
        bm1.stack.length = 1024 ∧ 0 ≤ bm1.stackSize ∧ bm1.stackSize ≤ 1024) :=
  ⟨Init_sizeInv bm0, fun bm inst h => ExecuteInst_of_inv bm inst h,
    fun insts => callAll_of_inv insts (Bm.Init bm0) (Init_sizeInv bm0)⟩

theorem size_invariant_witness :
    (sampleFull.stack.length = 1024 ∧ 0 ≤ sampleFull.stackSize ∧
      sampleFull.stackSize ≤ 1024) ∧
    ∃ bm1 e, sampleFull.ExecuteInst ⟨INST_PUSH, 1⟩ = .ret bm1 e ∧
        bm1.stack.length = 1024 ∧ 0 ≤ bm1.stackSize ∧ bm1.stackSize ≤ 1024 :=
  ⟨by decide, (size_invariant Bm.zero).2.1 sampleFull ⟨INST_PUSH, 1⟩ (by decide)⟩

/-! ## Index safety -/

/-- An index is inside a slice of the given length. -/
theorem sliceGet_isSome_iff (s : List Word) (i : Int) :
    (∃ a, sliceGet s i = some a) ↔ (0 ≤ i ∧ i < s.length) := by
  unfold sliceGet
  constructor
  · rintro ⟨a, h⟩
    split at h
    · rename_i h0
      have := lt_length_of_getElem? h
      omega
    · cases h
  · rintro ⟨h0, h1⟩
    rw [if_pos h0]
    exact ⟨_, List.getElem?_eq_getElem (by omega)⟩

theorem sliceGet_none_iff (s : List Word) (i : Int) :
    sliceGet s i = none ↔ ¬ (0 ≤ i ∧ i < s.length) := by
  rw [← sliceGet_isSome_iff]
  cases sliceGet s i <;> simp

theorem sliceSet_none_iff (s : List Word) (i : Int) (v : Word) :
    sliceSet s i v = none ↔ ¬ (0 ≤ i ∧ i < s.length) := by
  unfold sliceSet
  constructor
  · intro h
    split at h
    · cases h
    · rename_i hn
      intro hc
      exact hn ⟨hc.1, by omega⟩
  · intro h
    rw [if_neg]
    intro hc
    exact h ⟨hc.1, by omega⟩

theorem binaryOp_panic_iff (bm : Bm) (op : Word → Word → Word) :
    bm.binaryOp op = .panic ↔
      (¬ (0 ≤ bm.stackSize - 2 ∧ bm.stackSize - 2 < bm.stack.length) ∨
        ¬ (0 ≤ bm.stackSize - 1 ∧ bm.stackSize - 1 < bm.stack.length)) := by
  cases h1 : sliceGet bm.stack (bm.stackSize - 2) with
  | none =>
    have hn := (sliceGet_none_iff _ _).1 h1
    have hrun : bm.binaryOp op = .panic := by simp only [Bm.binaryOp, h1]
    exact ⟨fun _ => Or.inl hn, fun _ => hrun⟩
  | some a =>
    have g1 := (sliceGet_isSome_iff _ _).1 ⟨a, h1⟩
    cases h2 : sliceGet bm.stack (bm.stackSize - 1) with
    | none =>
      have hn := (sliceGet_none_iff _ _).1 h2
      have hrun : bm.binaryOp op = .panic := by simp only [Bm.binaryOp, h1, h2]
      exact ⟨fun _ => Or.inr hn, fun _ => hrun⟩
    | some b =>
      have g2 := (sliceGet_isSome_iff _ _).1 ⟨b, h2⟩
      cases h3 : sliceSet bm.stack (bm.stackSize - 2) (op a b) with
      | none => exact absurd g1 ((sliceSet_none_iff _ _ _).1 h3)
      | some t =>
        have hrun : bm.binaryOp op =
            .ret { bm with stack := t, stackSize := bm.stackSize - 1 } none := by
          simp only [Bm.binaryOp, h1, h2, h3]
        rw [hrun]
        constructor
        · intro h
          cases h
        · rintro (h | h)
          · exact absurd g1 h
          · exact absurd g2 h

theorem exists_mem_nil_iff (P : Int → Prop) : (∃ i ∈ ([] : List Int), P i) ↔ False := by
  simp

theorem exists_mem_one_iff (P : Int → Prop) (a : Int) : (∃ i ∈ [a], P i) ↔ P a := by
  simp

theorem exists_mem_two_iff (P : Int → Prop) (a b : Int) :
    (∃ i ∈ [a, b], P i) ↔ (P a ∨ P b) := by
  simp

theorem touched_binary (bm : Bm) (k : InstType) (x : Word)
    (hk : k = INST_PLUS ∨ k = INST_MINUS ∨ k = INST_MULT) :
    bm.touched ⟨k, x⟩ =
      if bm.stackSize < 2 then [] else [bm.stackSize - 2, bm.stackSize - 1] := by
  have g0 : k ≠ INST_PUSH := by
    rcases hk with h | h | h <;> subst h <;> decide
  simp only [Bm.touched, if_neg g0, if_pos hk]

theorem binary_panic_iff (bm : Bm) (k : InstType) (x : Word) (op : Word → Word → Word)
    (hk : k = INST_PLUS ∨ k = INST_MINUS ∨ k = INST_MULT)
    (hrun : 2 ≤ bm.stackSize → bm.ExecuteInst ⟨k, x⟩ = bm.binaryOp op) :
    bm.ExecuteInst ⟨k, x⟩ = .panic ↔
      ∃ i ∈ bm.touched ⟨k, x⟩, ¬ (0 ≤ i ∧ i < (bm.stack.length : Int)) := by
  rw [touched_binary bm k x hk]
  by_cases hlow : bm.stackSize < 2
  · rw [if_pos hlow, exists_mem_nil_iff,
      ExecuteInst_underflow bm k x (by rcases hk with h | h | h <;> simp [h]) hlow]
    simp
  · rw [if_neg hlow, exists_mem_two_iff, hrun (by omega), binaryOp_panic_iff]

/-- A call of `ExecuteInst` panics exactly when one of the slice indices it
evaluates is outside the stack. -/
theorem ExecuteInst_panic_iff (bm : Bm) (inst : Inst) :
    bm.ExecuteInst inst = .panic ↔
      ∃ i ∈ bm.touched inst, ¬ (0 ≤ i ∧ i < (bm.stack.length : Int)) := by
  obtain ⟨k, x⟩ := inst
  by_cases g0 : k = INST_PUSH
  · subst g0
    by_cases hfull : bm.stackSize ≥ STACK_CAPACITY
    · have ht : bm.touched ⟨INST_PUSH, x⟩ = [] := by
        simp only [Bm.touched, if_true, if_pos hfull]
      rw [ht, exists_mem_nil_iff, push_full_eq bm x hfull]
      simp
    · have ht : bm.touched ⟨INST_PUSH, x⟩ = [bm.stackSize] := by
        simp only [Bm.touched, if_true, if_neg hfull]
      rw [ht, exists_mem_one_iff, ← sliceSet_none_iff bm.stack bm.stackSize x]
      simp only [Bm.ExecuteInst, if_true, if_neg hfull]
      cases sliceSet bm.stack bm.stackSize x <;> simp
  by_cases g1 : k = INST_PLUS
  · exact binary_panic_iff bm k x Word.add (Or.inl g1)
      (fun h => by subst g1; exact ExecuteInst_plus bm x h)
  by_cases g2 : k = INST_MINUS
  · exact binary_panic_iff bm k x Word.sub (Or.inr (Or.inl g2))
      (fun h => by subst g2; exact ExecuteInst_minus bm x h)
  by_cases g3 : k = INST_MULT
  · exact binary_panic_iff bm k x Word.mul (Or.inr (Or.inr g3))
      (fun h => by subst g3; exact ExecuteInst_mult bm x h)
  have g123 : ¬ (k = INST_PLUS ∨ k = INST_MINUS ∨ k = INST_MULT) := by
    rintro (h | h | h)
    · exact g1 h
    · exact g2 h
    · exact g3 h
  by_cases g4 : k = INST_DIV
  · subst g4
    by_cases hlow : bm.stackSize < 2
    · have ht : bm.touched ⟨INST_DIV, x⟩ = [] := by
        simp only [Bm.touched, if_neg g0, if_neg g123, if_true, if_pos hlow]
      rw [ht, exists_mem_nil_iff,
        ExecuteInst_underflow bm INST_DIV x (by simp) hlow]
      simp
    · cases hget : sliceGet bm.stack (bm.stackSize - 1) with
      | none =>
        have ht : bm.touched ⟨INST_DIV, x⟩ = [bm.stackSize - 1] := by
          simp only [Bm.touched, if_neg g0, if_neg g123, if_true, if_neg hlow, hget]
        have hrun : bm.ExecuteInst ⟨INST_DIV, x⟩ = .panic := by
          simp only [Bm.ExecuteInst, if_neg g0, if_neg g1, if_neg g2, if_neg g3, if_true,
            if_neg hlow, hget]
        rw [ht, exists_mem_one_iff, hrun]
        exact ⟨fun _ => (sliceGet_none_iff _ _).1 hget, fun _ => rfl⟩
      | some b =>
        have gb := (sliceGet_isSome_iff _ _).1 ⟨b, hget⟩
        rw [ExecuteInst_div bm x b (by omega) hget]
        by_cases hb : b = 0
        · have ht : bm.touched ⟨INST_DIV, x⟩ = [bm.stackSize - 1] := by
            simp only [Bm.touched, if_neg g0, if_neg g123, if_true, if_neg hlow, hget,
              if_pos hb]
          rw [ht, exists_mem_one_iff, if_pos hb]
          constructor
          · intro h
            cases h
          · intro h
            exact absurd gb h
        · have ht : bm.touched ⟨INST_DIV, x⟩ = [bm.stackSize - 1, bm.stackSize - 2] := by
            simp only [Bm.touched, if_neg g0, if_neg g123, if_true, if_neg hlow, hget,
              if_neg hb]
          rw [ht, exists_mem_two_iff, if_neg hb, binaryOp_panic_iff]
          exact Or.comm
  · have ht : bm.touched ⟨k, x⟩ = [] := by
      simp only [Bm.touched, if_neg g0, if_neg g123, if_neg g4]
    rw [ht, exists_mem_nil_iff]
    by_cases g6 : k = INST_HALT
    · subst g6
      rw [halt_eq]
      simp
    · rw [other_kind_eq bm k x g0 g1 g2 g3 g4 g6]
      simp

/-- C20. Index safety: in a state whose stack has exactly 1024 slots and
whose size satisfies `0 ≤ stackSize ≤ 1024`, for every instruction (any kind,
any operand), every stack index that `ExecuteInst` evaluates (`stackSize` on
`Push`, `stackSize-1` and `stackSize-2` on arithmetic) lies in `[0, 1024)`, and
`ExecuteInst` does not panic.  A call panics exactly when one of these
indices is outside the stack. -/
theorem ExecuteInst_index_safe (bm : Bm) (inst : Inst)
    (hlen : bm.stack.length = 1024) (h0 : 0 ≤ bm.stackSize) (h1 : bm.stackSize ≤ 1024) :
    (∀ i ∈ bm.touched inst, 0 ≤ i ∧ i < 1024) ∧
    bm.ExecuteInst inst ≠ .panic ∧
    (∀ (b : Bm) (j : Inst), b.ExecuteInst j = .panic ↔
      ∃ i ∈ b.touched j, ¬ (0 ≤ i ∧ i < (b.stack.length : Int))) := by
  have hsafe : bm.ExecuteInst inst ≠ .panic := by
    obtain ⟨bm1, e, h, _⟩ := ExecuteInst_of_inv bm inst ⟨hlen, h0, h1⟩
    rw [h]
    simp
  refine ⟨?_, hsafe, ExecuteInst_panic_iff⟩
  intro i hi
  by_contra hc
  apply hsafe
  rw [ExecuteInst_panic_iff]
  refine ⟨i, hi, ?_⟩
  rw [hlen]
  exact hc

theorem ExecuteInst_index_safe_witness :
    sampleFull.stack.length = 1024 ∧ 0 ≤ sampleFull.stackSize ∧
    sampleFull.stackSize ≤ 1024 ∧
    (∀ i ∈ sampleFull.touched ⟨INST_MULT, 0⟩, 0 ≤ i ∧ i < 1024) ∧
    sampleFull.ExecuteInst ⟨INST_MULT, 0⟩ ≠ .panic :=
  ⟨by decide, by decide, by decide,
    (ExecuteInst_index_safe sampleFull ⟨INST_MULT, 0⟩ (by decide) (by decide) (by decide)).1,
    (ExecuteInst_index_safe sampleFull ⟨INST_MULT, 0⟩ (by decide) (by decide) (by decide)).2.1⟩

/-! ## Wrap-around arithmetic -/

theorem wrapWord_congr (x : Int) : (wrapWord x - x) % 18446744073709551616 = 0 := by
  show ((x + 9223372036854775808) % 18446744073709551616 - 9223372036854775808 - x)
    % 18446744073709551616 = 0
  omega

/-- C19. Arithmetic overflow wraps and never faults: in a state of size
`n ≥ 2` with top elements `a`, `b`, `INST_PLUS`, `INST_MINUS` and `INST_MULT`
return no error and store the `int64` that is congruent modulo `2^64` to the
exact `a + b`, `a - b`, `a * b`; `INST_DIV` with `b ≠ 0` returns no error and
stores the `int64` congruent to the truncated quotient.  In particular
`9223372036854775807 + 1` gives `-9223372036854775808`, and
`-9223372036854775808 / -1` gives `-9223372036854775808`. -/
theorem arith_overflow_wraps (bm : Bm) (n : Nat) (a b x : Word)
    (hsize : bm.stackSize = n) (h2 : 2 ≤ n)
    (ha : bm.stack[n - 2]? = some a) (hb : bm.stack[n - 1]? = some b) :
    (∃ bm1 r, bm.ExecuteInst ⟨INST_PLUS, x⟩ = .ret bm1 none ∧
        bm1.stack[n - 2]? = some r ∧ isWord r ∧
        (r - (a + b)) % 18446744073709551616 = 0) ∧
    (∃ bm1 r, bm.ExecuteInst ⟨INST_MINUS, x⟩ = .ret bm1 none ∧
        bm1.stack[n - 2]? = some r ∧ isWord r ∧
        (r - (a - b)) % 18446744073709551616 = 0) ∧
    (∃ bm1 r, bm.ExecuteInst ⟨INST_MULT, x⟩ = .ret bm1 none ∧
        bm1.stack[n - 2]? = some r ∧ isWord r ∧
        (r - a * b) % 18446744073709551616 = 0) ∧
    (b ≠ 0 → ∃ bm1 r, bm.ExecuteInst ⟨INST_DIV, x⟩ = .ret bm1 none ∧
        bm1.stack[n - 2]? = some r ∧ isWord r ∧
        (r - Int.tdiv a b) % 18446744073709551616 = 0 ∧
        (a = WORD_MIN → b = -1 → r = WORD_MIN)) ∧
    Word.add 9223372036854775807 1 = -9223372036854775808 ∧
    Word.quo (-9223372036854775808) (-1) = -9223372036854775808 := by
  have hs : 2 ≤ bm.stackSize := by omega
  refine ⟨?_, ?_, ?_, ?_, by decide, by decide⟩
  · obtain ⟨bm1, h, _, p2, _⟩ := binaryOp_post bm Word.add n a b hsize h2 ha hb
    exact ⟨bm1, _, by rw [ExecuteInst_plus bm x hs, h], p2, wrapWord_isWord _, wrapWord_congr _⟩
  · obtain ⟨bm1, h, _, p2, _⟩ := binaryOp_post bm Word.sub n a b hsize h2 ha hb
    exact ⟨bm1, _, by rw [ExecuteInst_minus bm x hs, h], p2, wrapWord_isWord _, wrapWord_congr _⟩
  · obtain ⟨bm1, h, _, p2, _⟩ := binaryOp_post bm Word.mul n a b hsize h2 ha hb
    exact ⟨bm1, _, by rw [ExecuteInst_mult bm x hs, h], p2, wrapWord_isWord _, wrapWord_congr _⟩
  · intro hb0
    have hget : sliceGet bm.stack (bm.stackSize - 1) = some b := by
      rw [sliceGet_eq bm.stack _ (n - 1) (by omega), hb]
    obtain ⟨bm1, h, _, p2, _⟩ := binaryOp_post bm Word.quo n a b hsize h2 ha hb
    refine ⟨bm1, _, by rw [ExecuteInst_div bm x b hs hget, if_neg hb0, h], p2,
      wrapWord_isWord _, wrapWord_congr _, ?_⟩
    intro hamin hbneg
    subst hamin hbneg
    decide

theorem arith_overflow_wraps_witness :
    sampleMinNegOne.stackSize = (2 : Nat) ∧ 2 ≤ 2 ∧
    sampleMinNegOne.stack[2 - 2]? = some (-9223372036854775808) ∧
    sampleMinNegOne.stack[2 - 1]? = some (-1) ∧
    ((-1 : Word) ≠ 0 → ∃ bm1 r, sampleMinNegOne.ExecuteInst ⟨INST_DIV, 0⟩ = .ret bm1 none ∧
        bm1.stack[2 - 2]? = some r ∧ isWord r ∧
        (r - Int.tdiv (-9223372036854775808) (-1)) % 18446744073709551616 = 0 ∧
        ((-9223372036854775808 : Word) = WORD_MIN → (-1 : Word) = -1 → r = WORD_MIN)) :=
  ⟨rfl, by decide, by decide, by decide,
    (arith_overflow_wraps sampleMinNegOne 2 (-9223372036854775808) (-1) 0 rfl (by decide)
      (by decide) (by decide)).2.2.2.1⟩

/-! ## Dump -/

theorem foldl_append_eq (l : List String) : ∀ acc : String,
    l.foldl (fun r t => r ++ t) acc = acc ++ String.join l := by
  unfold String.join
  induction l with
  | nil =>
    intro acc
    simp
  | cons t rest ih =>
    intro acc
    rw [List.foldl_cons, List.foldl_cons, ih (acc ++ t), ih ("" ++ t), String.empty_append,
      String.append_assoc]

theorem foldl_lines_eq (g : Word → String) (vs : List Word) (acc : String) :
    vs.foldl (fun out v => out ++ g v) acc = acc ++ String.join (vs.map g) := by
  rw [← foldl_append_eq, List.foldl_map]

theorem sliceTo_eq (s : List Word) (i : Int) (k : Nat) (h : i = k) (hk : k ≤ s.length) :
    sliceTo s i = some (s.take k) := by
  subst h
  simp [sliceTo, hk]

/-- C16. Dump format: in a state with 1024 slots and `0 ≤ stackSize ≤ 1024`,
`Dump` appends to the sink exactly `"Stack:\n"` followed by `"  [empty]\n"`
when `stackSize = 0`, and otherwise by one line per live element, bottom to
top, each made of two spaces, the signed decimal rendering of the element and
a newline; the live elements are the slots `0 .. stackSize-1`, so no slot at
an index `≥ stackSize` appears, and the state is not changed.  For live
elements `[3, 5, 7]` the output is `"Stack:\n  3\n  5\n  7\n"`. -/
theorem Dump_format (bm : Bm) (f : String) (n : Nat)
    (hlen : bm.stack.length = 1024) (hsize : bm.stackSize = n) (hcap : n ≤ 1024) :
    bm.Dump f = some (bm, f ++ "Stack:\n" ++
      (if n = 0 then "  [empty]\n"
        else String.join (bm.live.map (fun v => "  " ++ formatDecimal v ++ "\n")))) ∧
    bm.live.length = n ∧ (∀ i, i < n → bm.live[i]? = bm.stack[i]?) ∧
    (bm.live = [3, 5, 7] → bm.Dump "" = some (bm, "Stack:\n  3\n  5\n  7\n")) ∧
    formatDecimal (-42) = "-42" ∧ formatDecimal 0 = "0" ∧
    formatDecimal 9223372036854775807 = "9223372036854775807" := by
  have hlive : bm.live = bm.stack.take n := by
    unfold Bm.live
    rw [hsize, Int.toNat_ofNat]
  have hdump : ∀ g : String, bm.Dump g = some (bm, g ++ "Stack:\n" ++
      (if n = 0 then "  [empty]\n"
        else String.join (bm.live.map (fun v => "  " ++ formatDecimal v ++ "\n")))) := by
    intro g
    by_cases hn : n = 0
    · have h0 : ¬ bm.stackSize > 0 := by omega
      simp only [Bm.Dump, if_neg h0, if_pos hn]
    · have h0 : bm.stackSize > 0 := by omega
      simp only [Bm.Dump, if_pos h0, if_neg hn,
        sliceTo_eq bm.stack bm.stackSize n hsize (by omega), foldl_lines_eq, hlive]
  refine ⟨hdump f, ?_, ?_, ?_, by decide, by decide, by decide⟩
  · rw [hlive, List.length_take]
    omega
  · intro i hi
    rw [hlive, List.getElem?_take_of_lt hi]
  · intro h357
    have hn : n = 3 := by
      have := congrArg List.length h357
      rw [hlive, List.length_take] at this
      simp at this
      omega
    have htext : "" ++ "Stack:\n" ++
        String.join (([3, 5, 7] : List Word).map
          (fun v => "  " ++ formatDecimal v ++ "\n")) = "Stack:\n  3\n  5\n  7\n" := by
      decide
    rw [hdump "", h357, if_neg (by omega), htext]

theorem Dump_format_witness :
    sampleThree.stack.length = 1024 ∧ sampleThree.stackSize = (3 : Nat) ∧ 3 ≤ 1024 ∧
    sampleThree.live = [3, 5, 7] ∧
    sampleThree.Dump "" = some (sampleThree, "Stack:\n  3\n  5\n  7\n") :=
  ⟨by decide, rfl, by decide, by decide,
    (Dump_format sampleThree "" 3 (by decide) rfl (by decide)).2.2.2.1 (by decide)⟩

/-! ## Frame properties of `ExecuteInst` -/

/-- C14. Instruction pointer frame: for every state and every instruction
(any kind, any operand), whether the call succeeds or fails, the `ip` field
after `ExecuteInst` equals the `ip` field before it; and from a state with
1024 slots and `0 ≤ stackSize ≤ 1024` the call does return. -/
theorem ExecuteInst_ip_unchanged (bm : Bm) (inst : Inst) :
    (∀ (bm1 : Bm) (e : Option VmError),
      bm.ExecuteInst inst = .ret bm1 e → bm1.ip = bm.ip) ∧
    (bm.stack.length = 1024 ∧ 0 ≤ bm.stackSize ∧ bm.stackSize ≤ 1024 →
      ∃ bm1 e, bm.ExecuteInst inst = .ret bm1 e ∧ bm1.ip = bm.ip) := by
  refine ⟨fun bm1 e h => (ExecuteInst_frame bm bm1 inst e h).1, ?_⟩
  intro hinv
  obtain ⟨bm1, e, h, _⟩ := ExecuteInst_of_inv bm inst hinv
  exact ⟨bm1, e, h, (ExecuteInst_frame bm bm1 inst e h).1⟩

theorem ExecuteInst_ip_unchanged_witness :
    (sampleHalted.stack.length = 1024 ∧ 0 ≤ sampleHalted.stackSize ∧
      sampleHalted.stackSize ≤ 1024) ∧
    sampleHalted.ip = 9 ∧
    ∃ bm1 e, sampleHalted.ExecuteInst ⟨INST_PUSH, 5⟩ = .ret bm1 e ∧ bm1.ip = sampleHalted.ip :=
  ⟨by decide, rfl, (ExecuteInst_ip_unchanged sampleHalted ⟨INST_PUSH, 5⟩).2 (by decide)⟩

/-- C15. Halted is monotonic: for every state with `halted = true` and every
instruction (any kind, any operand), the state after `ExecuteInst` still has
`halted = true`; hence along any sequence of `ExecuteInst` calls a set flag
stays set.  From a state with 1024 slots and `0 ≤ stackSize ≤ 1024` the calls
do return.  `Init` resets the flag. -/
theorem halted_monotonic (bm : Bm) (hh : bm.halted = true) :
    (∀ (inst : Inst) (bm1 : Bm) (e : Option VmError),
      bm.ExecuteInst inst = .ret bm1 e → bm1.halted = true) ∧
    (∀ (insts : List Inst) (bm1 : Bm), callAll bm insts = some bm1 → bm1.halted = true) ∧
    (bm.stack.length = 1024 ∧ 0 ≤ bm.stackSize ∧ bm.stackSize ≤ 1024 →
      ∀ insts : List Inst, ∃ bm1, callAll bm insts = some bm1 ∧ bm1.halted = true) ∧
    (Bm.Init bm).halted = false := by
  refine ⟨fun inst bm1 e h => (ExecuteInst_frame bm bm1 inst e h).2.1 hh,
    fun insts bm1 h => callAll_halted insts bm bm1 hh h, ?_, rfl⟩
  intro hinv insts
  obtain ⟨bm1, h, _⟩ := callAll_of_inv insts bm hinv
  exact ⟨bm1, h, callAll_halted insts bm bm1 hh h⟩

theorem halted_monotonic_witness :
    sampleHalted.halted = true ∧
    (sampleHalted.stack.length = 1024 ∧ 0 ≤ sampleHalted.stackSize ∧
      sampleHalted.stackSize ≤ 1024) ∧
    (∃ bm1, callAll sampleHalted [⟨INST_PUSH, 1⟩, ⟨INST_JMP, 0⟩, ⟨INST_PLUS, 0⟩] = some bm1 ∧
      bm1.halted = true) ∧
    (Bm.Init sampleHalted).halted = false :=
  ⟨rfl, by decide,
    (halted_monotonic sampleHalted rfl).2.2.1 (by decide)
      [⟨INST_PUSH, 1⟩, ⟨INST_JMP, 0⟩, ⟨INST_PLUS, 0⟩],
    (halted_monotonic sampleHalted rfl).2.2.2⟩

end Gobm
